import Mathlib

/-!
Verification of the khronos timestamp-rewriting core.

Strings are modelled as lists of characters (the program only manipulates
ASCII in the verified paths).  Rust machine integers are modelled as
Nat/Int with explicit reductions modulo powers of two where the source
performs an `as` cast or where release-mode overflow wrapping matters.
Functions that can panic return Option, with `none` standing for the panic.
-/

/-- Space or tab, the separator set used by `str::find(&[' ', '\t'])`. -/
def isWs (c : Char) : Bool := c = ' ' || c = '\t'

/-- ASCII decimal digit test (Rust byte range b0..=b9). -/
def isDig (c : Char) : Bool := 48 ≤ c.toNat && c.toNat ≤ 57

/-- Numeric value of an ASCII digit character. -/
def digitVal (c : Char) : Nat := c.toNat - 48

/-- Value of a digit string, most significant digit first. -/
def digitsVal (l : List Char) : Nat := l.foldl (fun a c => a * 10 + digitVal c) 0

/-- Index of the first character satisfying `p`, as in Rust `str::find`. -/
def findCh (p : Char → Bool) : List Char → Option Nat
  | [] => none
  | c :: cs => if p c then some 0 else (findCh p cs).map (· + 1)

/-- The ASCII character for a digit value. -/
def digitCh (d : Nat) : Char := Char.ofNat (48 + d)

/-- Fuel-driven decimal rendering, most significant digit first.  The fuel
makes the recursion structural so that concrete values reduce in the kernel. -/
def ntdAux : Nat → Nat → List Char
  | 0, _ => []
  | f + 1, n => if n < 10 then [digitCh n] else ntdAux f (n / 10) ++ [digitCh (n % 10)]

/-- Decimal digit string of a natural number, modelling Rust `format!` with
`{}` on an unsigned integer. -/
def natToDigits (n : Nat) : List Char := ntdAux (n + 1) n

/-- Left zero-padding to a given width, modelling the Rust format spec
`{:0width$}` on a nonnegative value. -/
def padTo (w n : Nat) : List Char :=
  List.replicate (w - (natToDigits n).length) '0' ++ natToDigits n

theorem ntdAux_fuel : ∀ f g n, n < f → n < g → ntdAux f n = ntdAux g n := by
  intro f
  induction f with
  | zero => intro g n hf _; omega
  | succ f ih =>
    intro g n hf hg
    cases g with
    | zero => omega
    | succ g =>
      simp only [ntdAux]
      by_cases h : n < 10
      · simp [h]
      · have hn : 10 ≤ n := by omega
        have hdiv : n / 10 < n := Nat.div_lt_self (by omega) (by omega)
        simp only [h, if_false]
        rw [ih g (n / 10) (by omega) (by omega)]

theorem natToDigits_eq (n : Nat) :
    natToDigits n =
      if n < 10 then [digitCh n] else natToDigits (n / 10) ++ [digitCh (n % 10)] := by
  by_cases h : n < 10
  · simp [natToDigits, ntdAux, h]
  · have hn : 10 ≤ n := by omega
    have hdiv : n / 10 < n := Nat.div_lt_self (by omega) (by omega)
    simp only [h, if_false]
    show ntdAux (n + 1) n = natToDigits (n / 10) ++ [digitCh (n % 10)]
    simp only [ntdAux, h, if_false]
    rw [ntdAux_fuel n (n / 10 + 1) (n / 10) (by omega) (by omega)]
    rfl

theorem mem_natToDigits (n : Nat) : ∀ c ∈ natToDigits n, ∃ d, d < 10 ∧ c = digitCh d := by
  induction n using Nat.strong_induction_on with
  | _ n ih =>
    rw [natToDigits_eq]
    by_cases h : n < 10
    · simp only [h, if_true, List.mem_singleton]
      intro c hc
      exact ⟨n, h, hc⟩
    · have hn : 10 ≤ n := by omega
      have hdiv : n / 10 < n := Nat.div_lt_self (by omega) (by omega)
      simp only [h, if_false, List.mem_append, List.mem_singleton]
      intro c hc
      rcases hc with hc | hc
      · exact ih (n / 10) hdiv c hc
      · exact ⟨n % 10, Nat.mod_lt n (by omega), hc⟩

theorem digitCh_ne_dot : ∀ d, d < 10 → digitCh d ≠ '.' := by
  have h : ∀ d : Fin 10, digitCh d.val ≠ '.' := by decide
  intro d hd
  exact h ⟨d, hd⟩

theorem natToDigits_ne_dot (n : Nat) : ∀ c ∈ natToDigits n, c ≠ '.' := by
  intro c hc
  obtain ⟨d, hd, rfl⟩ := mem_natToDigits n c hc
  exact digitCh_ne_dot d hd

theorem natToDigits_length_le : ∀ p n, 0 < p → n < 10 ^ p → (natToDigits n).length ≤ p := by
  intro p
  induction p with
  | zero => omega
  | succ p ih =>
    intro n _ hn
    rw [natToDigits_eq]
    by_cases h : n < 10
    · simp [h]
    · have h10 : 10 ≤ n := by omega
      have hp : 0 < p := by
        by_contra hp0
        have : p = 0 := by omega
        subst this
        simp at hn
        omega
      have hdivlt : n / 10 < 10 ^ p := by
        have : n < 10 ^ p * 10 := by
          have : 10 ^ (p + 1) = 10 ^ p * 10 := by ring
          omega
        omega
      have := ih (n / 10) hp hdivlt
      simp only [h, if_false, List.length_append, List.length_singleton]
      omega

theorem padTo_length (w n : Nat) (h : (natToDigits n).length ≤ w) :
    (padTo w n).length = w := by
  simp only [padTo, List.length_append, List.length_replicate]
  omega

theorem padTo_ne_dot (w n : Nat) : ∀ c ∈ padTo w n, c ≠ '.' := by
  intro c hc
  simp only [padTo, List.mem_append] at hc
  rcases hc with hc | hc
  · have := List.eq_of_mem_replicate hc
    subst this
    decide
  · exact natToDigits_ne_dot n c hc

/-!
## Decimal parsing (src/parse.rs)

`parseU32` and `parseI64` model Rust `str::parse::<u32>` and
`str::parse::<i64>`: an optional leading sign (only `+` for the unsigned
type), then one or more ASCII digits, rejecting the empty body and values
outside the machine range.
-/

/-- Modelling Rust `str::parse::<u32>`. -/
def parseU32 (s : List Char) : Option Nat :=
  let ds := if s.head? = some '+' then s.tail else s
  if ds ≠ [] ∧ ds.all isDig = true ∧ digitsVal ds < 2 ^ 32 then some (digitsVal ds) else none

/-- Modelling Rust `str::parse::<i64>`. -/
def parseI64 (s : List Char) : Option Int :=
  if s.head? = some '+' then
    if s.tail ≠ [] ∧ s.tail.all isDig = true ∧ digitsVal s.tail < 2 ^ 63 then
      some (digitsVal s.tail : Int)
    else none
  else if s.head? = some '-' then
    if s.tail ≠ [] ∧ s.tail.all isDig = true ∧ digitsVal s.tail ≤ 2 ^ 63 then
      some (-(digitsVal s.tail : Int))
    else none
  else
    if s ≠ [] ∧ s.all isDig = true ∧ digitsVal s < 2 ^ 63 then
      some (digitsVal s : Int)
    else none

/-- `parse_decimal` from src/parse.rs: split at the first dot; the integer
part parses as i64; at most the first 9 characters after the dot parse as
u32 and are scaled by `10 ^ (9 - len)` (a u32 multiplication, hence the
reduction modulo `2 ^ 32`). -/
def parseDecimal (s : List Char) : Option (Int × Nat) :=
  match findCh (· == '.') s with
  | some i =>
      match parseI64 (s.take i) with
      | none => none
      | some ip =>
          let f := (s.drop (i + 1)).take 9
          match parseU32 f with
          | none => none
          | some n => some (ip, n * 10 ^ (9 - f.length) % 2 ^ 32)
  | none =>
      match parseI64 s with
      | none => none
      | some ip => some (ip, 0)

/-!
## Timestamps and parsing entry points (src/parse.rs)
-/

/-- A chrono `NaiveDateTime`, reduced to its observable content: signed
seconds since the epoch and the nanosecond fraction. -/
structure Timestamp where
  seconds : Int
  nanos : Nat
deriving DecidableEq, Repr

/-- The input formats of src/parse.rs.  The `epoc` base and the `custom`
pattern are caller-supplied payloads. -/
inductive InputFormat where
  | unix
  | unixMs
  | epoc (base : Timestamp)
  | iso8601
  | custom (pat : List Char)
deriving DecidableEq

/-- Modelling chrono `NaiveDateTime::from_timestamp`: panics (here `none`)
when the nanosecond argument reaches 2 000 000 000 (values in
[10^9, 2*10^9) are accepted as leap-second representations).  The calendar
range check on the seconds is not modelled; no claim exercises it. -/
def fromTimestamp (secs : Int) (nsecs : Nat) : Option Timestamp :=
  if nsecs < 2000000000 then some ⟨secs, nsecs⟩ else none

/-- The `UnixMs` arm of `parse_string` (src/parse.rs).  The outer Option
models a panic (`none`); the inner Option is the parse result, `some none`
meaning the token did not parse.  `msec / 1000` and `msec % 1000` are Rust
i64 division and remainder (truncation toward zero); `as u32` keeps the low
32 bits; the u32 multiplication and addition wrap modulo `2 ^ 32`. -/
def parseStringUnixMs (s : List Char) : Option (Option Timestamp) :=
  match parseDecimal s with
  | none => some none
  | some (msec, psec) =>
      let nsec : Nat :=
        (((msec.tmod 1000) % 2 ^ 32).toNat * 1000000 % 2 ^ 32 + psec / 1000) % 2 ^ 32
      (fromTimestamp (msec.tdiv 1000) nsec).map (fun t => some t)

/-- `parse_line` (src/parse.rs), generic over the token parser: the claims
about it hold for every `InputFormat`, so the behaviour of `parse_string`
on the token is abstracted into the parameter `ps`. -/
def parseLine (ps : List Char → Option Timestamp) (s : List Char) :
    Option Timestamp × List Char :=
  match findCh isWs s with
  | some i =>
      match ps (s.take i) with
      | some t => (some t, s.drop i)
      | none => (none, s)
  | none => (none, s)

/-- `detect_format` (src/parse.rs), generic over the ISO-8601 recognizer:
the chrono pattern matcher for `%Y-%m-%dT%H:%M:%S%.f` is an external
library routine, abstracted into the boolean parameter `iso`. -/
def detectFormat (iso : List Char → Bool) (s : List Char) : Option InputFormat :=
  match findCh isWs s with
  | none => none
  | some i =>
      let ts := s.take i
      if iso ts then some .iso8601
      else
        match parseDecimal ts with
        | some (x, _) => if x > 100000000000 then some .unixMs else some .unix
        | none => none

/-!
## Output formatting (src/write.rs)
-/

/-- The `Unit` enum of src/write.rs (named `TUnit` here to avoid the
clash with the Lean builtin). -/
inductive TUnit where
  | seconds
  | milliseconds
  | microseconds
  | nanoseconds
deriving DecidableEq, Repr

/-- The discriminant values `Seconds = 0 .. Nanoseconds = 3`. -/
def TUnit.ord : TUnit → Nat
  | .seconds => 0
  | .milliseconds => 1
  | .microseconds => 2
  | .nanoseconds => 3

/-- The `OutputFormat` enum of src/write.rs; `Precision` is inlined as a
Nat field. -/
inductive OutputFormat where
  | iso8601 (prec : Nat) (timeOnly : Bool)
  | unix (u : TUnit) (prec : Nat)
  | delta (u : TUnit) (prec : Nat)

/-- `format_seconds` (src/write.rs).  `prec.0 as u32` keeps the low 32 bits
of the usize; the failed `assert!(prec <= 9)` is `none`.  `seconds as u128`
reinterprets the signed value modulo `2 ^ 128` and the u128 products and
sums wrap modulo `2 ^ 128` (release semantics).  The fractional value fits
i64 because `frac < rmag ≤ 10 ^ 9` and `prec ≤ 9`, so those operations
need no reduction. -/
def formatSeconds (seconds : Int) (nanos : Nat) (u : TUnit) (prec : Nat) :
    Option (List Char) :=
  let p := prec % 2 ^ 32
  if p ≤ 9 then
    let rmag : Nat := 1000 ^ (3 - u.ord)
    let full : Nat :=
      ((seconds % 2 ^ 128).toNat * 1000 ^ u.ord % 2 ^ 128 + nanos / rmag) % 2 ^ 128
    let frac : Nat := nanos % rmag
    let fd : Nat := 9 - u.ord * 3
    if p = 0 then some (natToDigits full)
    else if fd > p then some (natToDigits full ++ '.' :: padTo p (frac / 10 ^ (fd - p)))
    else some (natToDigits full ++ '.' :: padTo p (frac * 10 ^ (p - fd)))
  else none

/-- Total nanoseconds of the chrono `Duration` `t - pt`. -/
def deltaNanos (t pt : Timestamp) : Int :=
  (t.seconds * 1000000000 + (t.nanos : Int)) - (pt.seconds * 1000000000 + (pt.nanos : Int))

/-- `write` (src/write.rs), generic over the chrono strftime renderer
`isoR` used only by the Iso8601 arm (it returns the `%.9f`-style string
that the arm then truncates).  In the Delta arm, `num_nanoseconds()`
returns `None` exactly when the total nanosecond difference falls outside
the i64 range, and the `expect` then panics (`none` here); `ns / 1e9` and
`ns % 1e9` are Rust i64 truncating division and remainder, and `as u32`
keeps the low 32 bits. -/
def write (isoR : Timestamp → Bool → List Char) (fmt : OutputFormat)
    (t : Timestamp) (prev : Option Timestamp) : Option (List Char) :=
  match fmt with
  | .iso8601 p timeOnly =>
      let s := isoR t timeOnly
      some (if p = 0 then s.take (s.length - 10) else s.take (s.length - 9 + p))
  | .unix u p => formatSeconds t.seconds t.nanos u p
  | .delta u p =>
      let d := deltaNanos t (prev.getD t)
      if -(2 ^ 63) ≤ d ∧ d ≤ 2 ^ 63 - 1 then
        formatSeconds (d.tdiv 1000000000) ((d.tmod 1000000000 % 2 ^ 32).toNat) u p
      else none

/-!
## Spec-side definitions

These follow the wording of the specification, for comparison with the
source-derived definitions above.
-/

/-- Modelled from the spec: the fixed-point rendering contract of
`format_fixed_point` stated with exact (unbounded) arithmetic — the
unit-scaled integer part is `seconds * 1000 ^ u + nanos / 1000 ^ (3 - u)`
computed exactly, the remainder `nanos % 1000 ^ (3 - u)` is truncated to
`prec` digits when more are available and zero-extended when fewer are. -/
def fixedPointSpec (s n : Nat) (u : TUnit) (prec : Nat) : List Char :=
  let rmag : Nat := 1000 ^ (3 - u.ord)
  let full : Nat := s * 1000 ^ u.ord + n / rmag
  let frac : Nat := n % rmag
  let fd : Nat := 9 - u.ord * 3
  if prec = 0 then natToDigits full
  else if fd > prec then natToDigits full ++ '.' :: padTo prec (frac / 10 ^ (fd - prec))
  else natToDigits full ++ '.' :: padTo prec (frac * 10 ^ (prec - fd))

/-- The body of a signed numeral: the characters after an optional leading
sign. -/
def signBody (t : List Char) : List Char :=
  if t.head? = some '+' ∨ t.head? = some '-' then t.tail else t

/-- The body of an unsigned numeral: the characters after an optional
leading plus. -/
def plusBody (t : List Char) : List Char :=
  if t.head? = some '+' then t.tail else t

/-- The strings accepted by the i64 parser: an optional sign followed by a
nonempty run of digits whose value fits the signed 64-bit range. -/
def i64Accepts (t : List Char) : Prop :=
  signBody t ≠ [] ∧ (signBody t).all isDig = true ∧
    (if t.head? = some '-' then digitsVal (signBody t) ≤ 2 ^ 63
     else digitsVal (signBody t) < 2 ^ 63)

/-- The strings accepted by the u32 parser: an optional plus followed by a
nonempty run of digits whose value fits the unsigned 32-bit range. -/
def u32Accepts (t : List Char) : Prop :=
  plusBody t ≠ [] ∧ (plusBody t).all isDig = true ∧ digitsVal (plusBody t) < 2 ^ 32

instance (t : List Char) : Decidable (i64Accepts t) := by
  unfold i64Accepts
  infer_instance

instance (t : List Char) : Decidable (u32Accepts t) := by
  unfold u32Accepts
  infer_instance

set_option maxRecDepth 8000

/-!
## Helper lemmas
-/

theorem findCh_eq_none (p : Char → Bool) :
    ∀ s : List Char, (∀ c ∈ s, p c = false) → findCh p s = none := by
  intro s
  induction s with
  | nil => intro _; rfl
  | cons c cs ih =>
    intro h
    have hc : p c = false := h c (by simp)
    simp only [findCh, hc, if_false, Bool.false_eq_true]
    rw [ih (fun x hx => h x (by simp [hx]))]
    rfl

theorem findCh_eq_some (p : Char → Bool) :
    ∀ (s : List Char) (i : Nat) (h : i < s.length),
      (∀ c ∈ s.take i, p c = false) → p (s.get ⟨i, h⟩) = true → findCh p s = some i := by
  intro s
  induction s with
  | nil => intro i h; simp at h
  | cons c cs ih =>
    intro i h hpre hi
    cases i with
    | zero =>
      simp only [List.get] at hi
      simp [findCh, hi]
    | succ i =>
      have hc : p c = false := hpre c (by simp [List.take])
      have hrec := ih i (by simpa using h) (fun x hx => hpre x (by simp [List.take, hx])) hi
      simp [findCh, hc, hrec]

theorem findCh_append (p : Char → Bool) (l : List Char) (x : Char) (r : List Char)
    (hl : ∀ c ∈ l, p c = false) (hx : p x = true) :
    findCh p (l ++ x :: r) = some l.length := by
  induction l with
  | nil => simp [findCh, hx]
  | cons c cs ih =>
    have hc : p c = false := hl c (by simp)
    have := ih (fun y hy => hl y (by simp [hy]))
    simp [findCh, hc, this]

theorem isDig_ne_dot (c : Char) (h : isDig c = true) : c ≠ '.' := by
  intro heq
  subst heq
  simp [isDig] at h

theorem isDig_ne_plus (c : Char) (h : isDig c = true) : c ≠ '+' := by
  intro heq
  subst heq
  simp [isDig] at h

theorem isDig_digitVal_le (c : Char) (h : isDig c = true) : digitVal c ≤ 9 := by
  simp only [isDig, Bool.and_eq_true, decide_eq_true_eq] at h
  simp only [digitVal]
  omega

theorem digitsVal_foldl_lt :
    ∀ (l : List Char) (a : Nat), l.all isDig = true →
      l.foldl (fun a c => a * 10 + digitVal c) a < (a + 1) * 10 ^ l.length := by
  intro l
  induction l with
  | nil => intro a _; simp
  | cons c cs ih =>
    intro a h
    simp only [List.all_cons, Bool.and_eq_true] at h
    have hd : digitVal c ≤ 9 := isDig_digitVal_le c h.1
    have hrec := ih (a * 10 + digitVal c) h.2
    have hstep : (a * 10 + digitVal c + 1) * 10 ^ cs.length ≤ (a + 1) * 10 ^ (cs.length + 1) := by
      have h1 : a * 10 + digitVal c + 1 ≤ (a + 1) * 10 := by omega
      calc (a * 10 + digitVal c + 1) * 10 ^ cs.length
          ≤ ((a + 1) * 10) * 10 ^ cs.length := Nat.mul_le_mul_right _ h1
        _ = (a + 1) * 10 ^ (cs.length + 1) := by ring
    simp only [List.foldl_cons, List.length_cons]
    omega

theorem digitsVal_lt (l : List Char) (h : l.all isDig = true) :
    digitsVal l < 10 ^ l.length := by
  have := digitsVal_foldl_lt l 0 h
  simpa [digitsVal] using this

theorem foldl_replicate_zero :
    ∀ (k a : Nat), (List.replicate k '0').foldl (fun a c => a * 10 + digitVal c) a = a * 10 ^ k := by
  intro k
  induction k with
  | zero => intro a; simp
  | succ k ih =>
    intro a
    have hz : digitVal '0' = 0 := by decide
    simp only [List.replicate_succ, List.foldl_cons, hz, Nat.add_zero, ih]
    ring

theorem digitsVal_append_zeros (l : List Char) (k : Nat) :
    digitsVal (l ++ List.replicate k '0') = digitsVal l * 10 ^ k := by
  simp only [digitsVal, List.foldl_append]
  exact foldl_replicate_zero k _

/-!
## Claim C4
-/

/-- Claim C4: for every input line and every input format (abstracted as an
arbitrary token parser `ps`): a line with no space or tab yields no
timestamp and the whole line; a whitespace-free token that fails to parse
yields no timestamp and the whole line; and a token that parses yields the
timestamp together with the remainder starting at, and including, the
separating whitespace character. -/
theorem parseLine_tokenization (ps : List Char → Option Timestamp) (s : List Char) :
    ((∀ c ∈ s, isWs c = false) → parseLine ps s = (none, s)) ∧
    (∀ i (h : i < s.length), (∀ c ∈ s.take i, isWs c = false) →
      isWs (s.get ⟨i, h⟩) = true →
      ((ps (s.take i) = none → parseLine ps s = (none, s)) ∧
       (∀ t, ps (s.take i) = some t →
         parseLine ps s = (some t, s.drop i) ∧
         s.drop i = s.get ⟨i, h⟩ :: s.drop (i + 1)))) := by
  constructor
  · intro hall
    simp [parseLine, findCh_eq_none isWs s hall]
  · intro i h hpre hws
    have hf := findCh_eq_some isWs s i h hpre hws
    constructor
    · intro hn
      simp [parseLine, hf, hn]
    · intro t ht
      constructor
      · simp [parseLine, hf, ht]
      · rw [List.drop_eq_getElem_cons h, List.get_eq_getElem]

/-- Witness for C4 at a concrete line, parser and separator position. -/
theorem parseLine_tokenization_w :
    parseLine (fun l => if l = ("123").toList then some ⟨123, 0⟩ else none)
        (("123 x").toList) = (some ⟨123, 0⟩, (" x").toList) := by
  have h := ((parseLine_tokenization
      (fun l => if l = ("123").toList then some ⟨123, 0⟩ else none)
      (("123 x").toList)).2 3 (by decide) (by decide) (by decide)).2
      ⟨123, 0⟩ (by decide)
  exact h.1.trans (by decide)

/-!
## Claim C5
-/

/-- Claim C5: `detect_format` inspects only the leading token (a line
without whitespace yields no format); it classifies an ISO-matching token
as Iso8601; otherwise a decimal-parsing token as UnixMillis when the
integer part exceeds 100 000 000 000 and as Unix when smaller or equal;
otherwise it yields no format; and it never yields EpochOffset or Custom.
The ISO-8601 pattern matcher is abstracted as the parameter `iso`. -/
theorem detectFormat_classification (iso : List Char → Bool) (s : List Char) :
    ((∀ c ∈ s, isWs c = false) → detectFormat iso s = none) ∧
    (∀ i (h : i < s.length), (∀ c ∈ s.take i, isWs c = false) →
      isWs (s.get ⟨i, h⟩) = true →
      ((iso (s.take i) = true → detectFormat iso s = some .iso8601) ∧
       (iso (s.take i) = false →
         (∀ x n, parseDecimal (s.take i) = some (x, n) →
            ((x > 100000000000 → detectFormat iso s = some .unixMs) ∧
             (x ≤ 100000000000 → detectFormat iso s = some .unix))) ∧
         (parseDecimal (s.take i) = none → detectFormat iso s = none)))) ∧
    (∀ b, detectFormat iso s ≠ some (.epoc b)) ∧
    (∀ pat, detectFormat iso s ≠ some (.custom pat)) := by
  refine ⟨?_, ?_, ?_, ?_⟩
  · intro hall
    simp [detectFormat, findCh_eq_none isWs s hall]
  · intro i h hpre hws
    have hf := findCh_eq_some isWs s i h hpre hws
    constructor
    · intro hiso
      simp [detectFormat, hf, hiso]
    · intro hiso
      constructor
      · intro x n hd
        constructor
        · intro hx
          simp [detectFormat, hf, hiso, hd, hx]
        · intro hx
          simp [detectFormat, hf, hiso, hd]
          omega
      · intro hd
        simp [detectFormat, hf, hiso, hd]
  · intro b
    cases hf : findCh isWs s with
    | none => simp [detectFormat, hf]
    | some i =>
      by_cases hiso : iso (s.take i) <;> simp [detectFormat, hf, hiso]
      cases hd : parseDecimal (s.take i) with
      | none => simp
      | some xn =>
        by_cases hx : xn.1 > 100000000000 <;> simp [hx]
  · intro pat
    cases hf : findCh isWs s with
    | none => simp [detectFormat, hf]
    | some i =>
      by_cases hiso : iso (s.take i) <;> simp [detectFormat, hf, hiso]
      cases hd : parseDecimal (s.take i) with
      | none => simp
      | some xn =>
        by_cases hx : xn.1 > 100000000000 <;> simp [hx]

/-- Witness for C5 at a concrete line classified as UnixMillis. -/
theorem detectFormat_classification_w :
    detectFormat (fun _ => false) (("200000000000 x").toList) = some .unixMs := by
  exact ((((detectFormat_classification (fun _ => false)
      (("200000000000 x").toList)).2.1 12 (by decide) (by decide) (by decide)).2
      (by decide)).1 200000000000 0 (by decide)).1 (by norm_num)

theorem parseI64_none_iff (t : List Char) : parseI64 t = none ↔ ¬ i64Accepts t := by
  by_cases hp : t.head? = some '+'
  · have hm : ¬ t.head? = some '-' := by rw [hp]; simp
    by_cases hc : t.tail ≠ [] ∧ t.tail.all isDig = true ∧ digitsVal t.tail < 2 ^ 63 <;>
      simp [parseI64, i64Accepts, signBody, hp, hm, hc] <;> tauto
  · by_cases hm : t.head? = some '-'
    · by_cases hc : t.tail ≠ [] ∧ t.tail.all isDig = true ∧ digitsVal t.tail ≤ 2 ^ 63 <;>
        simp [parseI64, i64Accepts, signBody, hp, hm, hc] <;> tauto
    · by_cases hc : t ≠ [] ∧ t.all isDig = true ∧ digitsVal t < 2 ^ 63 <;>
        simp [parseI64, i64Accepts, signBody, hp, hm, hc] <;> tauto

theorem parseU32_none_iff (t : List Char) : parseU32 t = none ↔ ¬ u32Accepts t := by
  by_cases hp : t.head? = some '+'
  · by_cases hc : t.tail ≠ [] ∧ t.tail.all isDig = true ∧ digitsVal t.tail < 2 ^ 32 <;>
      simp [parseU32, u32Accepts, plusBody, hp, hc] <;> tauto
  · by_cases hc : t ≠ [] ∧ t.all isDig = true ∧ digitsVal t < 2 ^ 32 <;>
      simp [parseU32, u32Accepts, plusBody, hp, hc] <;> tauto

theorem parseI64_no_dot (t : List Char) (v : Int) (h : parseI64 t = some v) :
    ∀ c ∈ t, c ≠ '.' := by
  have hacc : i64Accepts t := by
    by_contra hn
    have h0 := (parseI64_none_iff t).mpr hn
    rw [h] at h0
    exact absurd h0 (by simp)
  intro c hc
  cases t with
  | nil => simp at hc
  | cons a as =>
    by_cases hsign : a = '+' ∨ a = '-'
    · have hbody : signBody (a :: as) = as := by
        rcases hsign with h1 | h1 <;> subst h1 <;> simp [signBody]
      rcases List.mem_cons.mp hc with hceq | hcas
      · subst hceq
        rcases hsign with h1 | h1 <;> subst h1 <;> decide
      · have hall := hacc.2.1
        rw [hbody, List.all_eq_true] at hall
        exact isDig_ne_dot c (hall c hcas)
    · push_neg at hsign
      have hbody : signBody (a :: as) = a :: as := by
        simp [signBody, hsign.1, hsign.2]
      have hall := hacc.2.1
      rw [hbody, List.all_eq_true] at hall
      exact isDig_ne_dot c (hall c hc)

/-!
## Claim C7
-/

/-- Claim C7 counterexample: the fractional part of `1.123456789x`
(everything after the decimal point) is not purely decimal digits, yet the
decimal parser succeeds, because only the first 9 characters after the
point are ever examined.  This refutes the claim that the parser returns
no value whenever the fractional part is not purely decimal digits. -/
theorem parseDecimal_fraction_tail_unchecked :
    (¬ ((("1.123456789x").toList.drop 2).all isDig = true)) ∧
    findCh (· == '.') (("1.123456789x").toList) = some 1 ∧
    parseDecimal (("1.123456789x").toList) = some (1, 123456789) := by
  refine ⟨by decide, by decide, by decide⟩

/-- Claim C7 as amended: the decimal parser returns no value exactly when
the integer part is not an optional sign followed by one or more digits
within the i64 range, or when the fractional slice made of at most the
first 9 characters after the decimal point is not an optional leading plus
followed by one or more digits (characters of the fraction beyond the
first 9 are never examined; the unsigned parser tolerates a leading plus);
without a decimal point, only the integer-part condition applies. -/
theorem parseDecimal_reject_characterization (s : List Char) :
    (findCh (· == '.') s = none → (parseDecimal s = none ↔ ¬ i64Accepts s)) ∧
    (∀ i, findCh (· == '.') s = some i →
      (parseDecimal s = none ↔
        ¬ i64Accepts (s.take i) ∨ ¬ u32Accepts ((s.drop (i + 1)).take 9))) := by
  constructor
  · intro hf
    simp only [parseDecimal, hf]
    cases hp : parseI64 s with
    | none => simp [(parseI64_none_iff s).mp hp]
    | some v =>
      have : ¬ parseI64 s = none := by simp [hp]
      rw [parseI64_none_iff] at this
      simp [this]
  · intro i hf
    simp only [parseDecimal, hf]
    cases hp : parseI64 (s.take i) with
    | none => simp [(parseI64_none_iff _).mp hp]
    | some v =>
      have hip : ¬ ¬ i64Accepts (s.take i) := by
        intro hn
        have := (parseI64_none_iff _).mpr hn
        rw [hp] at this
        exact absurd this (by simp)
      cases hu : parseU32 ((s.drop (i + 1)).take 9) with
      | none => simp [hip, (parseU32_none_iff _).mp hu]
      | some n =>
        have hun : ¬ ¬ u32Accepts ((s.drop (i + 1)).take 9) := by
          intro hn
          have := (parseU32_none_iff _).mpr hn
          rw [hu] at this
          exact absurd this (by simp)
        simp [hip, hun]

/-- Witness for the amended C7: the two failure examples of the claim,
derived from the characterization. -/
theorem parseDecimal_reject_characterization_w :
    parseDecimal (("123.1foo").toList) = none ∧
    parseDecimal (("foo.123").toList) = none := by
  constructor
  · exact ((parseDecimal_reject_characterization (("123.1foo").toList)).2 3
      (by decide)).mpr (Or.inr (by decide))
  · exact ((parseDecimal_reject_characterization (("foo.123").toList)).2 3
      (by decide)).mpr (Or.inl (by decide))

/-!
## Claim C8
-/

/-- Claim C8: for a valid decimal string whose fractional part has fewer
than 9 digits, the parsed nanosecond value equals those digits right-padded
with zeros to 9 digits read as an integer; with more than 9 digits, exactly
the first 9 are used and the rest discarded. -/
theorem parseDecimal_fraction_padding (ip : List Char) (v : Int) (frac : List Char)
    (hip : parseI64 ip = some v) (hne : frac ≠ []) (hdig : frac.all isDig = true) :
    (frac.length < 9 →
      parseDecimal (ip ++ '.' :: frac) =
        some (v, digitsVal (frac ++ List.replicate (9 - frac.length) '0'))) ∧
    (frac.length > 9 →
      parseDecimal (ip ++ '.' :: frac) = some (v, digitsVal (frac.take 9))) := by
  have hfind : findCh (· == '.') (ip ++ '.' :: frac) = some ip.length := by
    refine findCh_append _ ip '.' frac (fun c hc => ?_) (by simp)
    have := parseI64_no_dot ip v hip c hc
    simpa using this
  have htake : (ip ++ '.' :: frac).take ip.length = ip := by
    simpa using List.take_left ip ('.' :: frac)
  have hdrop : (ip ++ '.' :: frac).drop (ip.length + 1) = frac := by
    have hsplit : ip ++ '.' :: frac = (ip ++ ['.']) ++ frac := by simp
    have hlen : (ip ++ ['.']).length = ip.length + 1 := by simp
    rw [hsplit, ← hlen, List.drop_left]
  -- the fractional slice examined by the parser
  obtain ⟨c, cs, rfl⟩ := List.exists_cons_of_ne_nil hne
  have hcdig : isDig c = true := by
    rw [List.all_eq_true] at hdig
    exact hdig c (by simp)
  have htk9 : ∃ ds, (c :: cs).take 9 = c :: ds ∧ ds = cs.take 8 := ⟨cs.take 8, by simp, rfl⟩
  have htkdig : ((c :: cs).take 9).all isDig = true := by
    rw [List.all_eq_true] at hdig ⊢
    exact fun x hx => hdig x (List.take_subset 9 _ hx)
  have htklen : ((c :: cs).take 9).length = min 9 (c :: cs).length := List.length_take 9 _
  have htkval : digitsVal ((c :: cs).take 9) < 10 ^ 9 := by
    have h1 := digitsVal_lt _ htkdig
    have h2 : (10 : Nat) ^ (((c :: cs).take 9).length) ≤ 10 ^ 9 := by
      apply Nat.pow_le_pow_right (by omega)
      omega
    omega
  have hu32 : parseU32 ((c :: cs).take 9) = some (digitsVal ((c :: cs).take 9)) := by
    have hhd : ((c :: cs).take 9).head? = some c := by simp
    have hplus : ¬ ((c :: cs).take 9).head? = some '+' := by
      rw [hhd]
      intro heq
      have hc2 : c = '+' := by injection heq
      exact isDig_ne_plus c hcdig hc2
    simp only [parseU32, if_neg hplus]
    rw [if_pos]
    refine ⟨by simp, htkdig, ?_⟩
    have : (10 : Nat) ^ 9 < 2 ^ 32 := by norm_num
    omega
  have hmain : parseDecimal (ip ++ '.' :: c :: cs) =
      some (v, digitsVal ((c :: cs).take 9) *
        10 ^ (9 - ((c :: cs).take 9).length) % 2 ^ 32) := by
    simp only [parseDecimal, hfind, htake, hip, hdrop, hu32]
  have hpow932 : (10 : Nat) ^ 9 < 2 ^ 32 := by norm_num
  constructor
  · intro hlt
    have htkall : (c :: cs).take 9 = c :: cs := List.take_of_length_le (by omega)
    rw [hmain, htkall]
    have hb : digitsVal (c :: cs) * 10 ^ (9 - (c :: cs).length) < 10 ^ 9 := by
      have h1 : digitsVal (c :: cs) < 10 ^ (c :: cs).length := digitsVal_lt _ hdig
      calc digitsVal (c :: cs) * 10 ^ (9 - (c :: cs).length)
          < 10 ^ (c :: cs).length * 10 ^ (9 - (c :: cs).length) :=
            (Nat.mul_lt_mul_right (Nat.pow_pos (by omega))).mpr h1
        _ = 10 ^ ((c :: cs).length + (9 - (c :: cs).length)) := by rw [← pow_add]
        _ = 10 ^ 9 := by congr 1; omega
    rw [Nat.mod_eq_of_lt (by omega)]
    rw [digitsVal_append_zeros]
  · intro hgt
    have hlen9 : ((c :: cs).take 9).length = 9 := by
      rw [htklen]
      omega
    rw [hmain, hlen9]
    simp only [Nat.sub_self, pow_zero, Nat.mul_one]
    rw [Nat.mod_eq_of_lt (by omega)]

/-- Witness for C8: the fractional part `1` of `123.1` is padded to nine
digits, giving 100 000 000 nanoseconds. -/
theorem parseDecimal_fraction_padding_w :
    parseDecimal ((("123").toList) ++ '.' :: ['1']) = some (123, 100000000) := by
  have h := (parseDecimal_fraction_padding (("123").toList) 123 ['1']
    (by decide) (by decide) (by decide)).1 (by decide)
  exact h.trans (by decide)

/-!
## Claim C1
-/

theorem tunit_pow_le (u : TUnit) : (1000 : Nat) ^ u.ord ≤ 1000000000 := by
  cases u <;> norm_num [TUnit.ord]

/-- Claim C1: for every unit, every precision 0-9 and every nonnegative
second count in the i64 range with nanoseconds below 10^9, the formatter
computes the unit-scaled integer part exactly as
`seconds * 1000 ^ u + nanos / 1000 ^ (3 - u)` (the 128-bit arithmetic never
wraps on this domain), renders only that integer when the precision is 0,
and otherwise appends a dot and the sub-unit remainder truncated to the
precision when more digits are available or zero-padded on the right when
fewer are.  Negative seconds are outside this domain; their behaviour is
the subject of claim C2. -/
theorem formatSeconds_exact_nonneg (s n p : Nat) (u : TUnit)
    (hs : s < 2 ^ 63) (hn : n < 10 ^ 9) (hp : p ≤ 9) :
    formatSeconds (s : Int) n u p = some (fixedPointSpec s n u p) := by
  have hp32 : p % 2 ^ 32 = p := Nat.mod_eq_of_lt (lt_of_le_of_lt hp (by norm_num))
  have hmag := tunit_pow_le u
  have hcast : (((s : Nat) : Int) % 2 ^ 128).toNat = s := by
    rw [Int.emod_eq_of_lt (by positivity) (by exact_mod_cast
      (lt_of_lt_of_le hs (by norm_num) : s < 2 ^ 128))]
    exact Int.toNat_natCast s
  have hbound : s * 1000 ^ u.ord + n / 1000 ^ (3 - u.ord) < 2 ^ 128 := by
    have h1 : s * 1000 ^ u.ord ≤ s * 1000000000 := Nat.mul_le_mul_left s hmag
    have h2 : s * 1000000000 < 2 ^ 63 * 1000000000 :=
      (Nat.mul_lt_mul_right (by norm_num)).mpr hs
    have h3 : n / 1000 ^ (3 - u.ord) ≤ n := Nat.div_le_self _ _
    have h4 : (2 : Nat) ^ 63 * 1000000000 + 10 ^ 9 < 2 ^ 128 := by norm_num
    omega
  have h1 : s * 1000 ^ u.ord % 2 ^ 128 = s * 1000 ^ u.ord :=
    Nat.mod_eq_of_lt (Nat.lt_of_le_of_lt (Nat.le_add_right _ _) hbound)
  have h2 : (s * 1000 ^ u.ord + n / 1000 ^ (3 - u.ord)) % 2 ^ 128 =
      s * 1000 ^ u.ord + n / 1000 ^ (3 - u.ord) := Nat.mod_eq_of_lt hbound
  simp only [formatSeconds, fixedPointSpec, hp32, hcast, h1, h2, if_pos hp]
  split_ifs <;> rfl

/-- Witness for C1: the three concrete renderings required by the claim. -/
theorem formatSeconds_exact_nonneg_w :
    formatSeconds 0 0 TUnit.seconds 1 = some (("0.0").toList) ∧
    formatSeconds 42 123456789 TUnit.seconds 3 = some (("42.123").toList) ∧
    formatSeconds 0 456000 TUnit.seconds 6 = some (("0.000456").toList) := by
  refine ⟨?_, ?_, ?_⟩
  · exact (formatSeconds_exact_nonneg 0 0 1 TUnit.seconds (by norm_num) (by norm_num)
      (by norm_num)).trans (by decide)
  · exact (formatSeconds_exact_nonneg 42 123456789 3 TUnit.seconds (by norm_num)
      (by norm_num) (by norm_num)).trans (by decide)
  · exact (formatSeconds_exact_nonneg 0 456000 6 TUnit.seconds (by norm_num)
      (by norm_num) (by norm_num)).trans (by decide)

/-!
## Claim C9
-/

theorem tunit_rmag_eq (u : TUnit) : (1000 : Nat) ^ (3 - u.ord) = 10 ^ (9 - u.ord * 3) := by
  cases u <;> norm_num [TUnit.ord]

/-- For precisions within the asserted range, the formatter always
produces a string (the only panic in `format_seconds` is the precision
assertion). -/
theorem formatSeconds_total (sec : Int) (n : Nat) (u : TUnit) (p : Nat) (hp : p ≤ 9) :
    ∃ out, formatSeconds sec n u p = some out := by
  have hp32 : p % 2 ^ 32 = p := Nat.mod_eq_of_lt (lt_of_le_of_lt hp (by norm_num))
  simp only [formatSeconds, hp32, if_pos hp]
  by_cases h0 : p = 0
  · exact ⟨_, by rw [if_pos h0]⟩
  · by_cases hb : 9 - u.ord * 3 > p
    · exact ⟨_, by rw [if_neg h0, if_pos hb]⟩
    · exact ⟨_, by rw [if_neg h0, if_neg hb]⟩

/-- Claim C9: for every second count, every nanosecond value below 10^9,
every unit and every precision 0-9, `format_seconds` terminates without
panicking (it returns a string), and the produced string has no fractional
suffix when the precision is 0 and a fractional suffix of exactly the
precision many characters otherwise (in particular never longer than the
precision). -/
theorem formatSeconds_no_panic_suffix (sec : Int) (n : Nat) (u : TUnit) (p : Nat)
    (hn : n < 10 ^ 9) (hp : p ≤ 9) :
    ∃ out, formatSeconds sec n u p = some out ∧
      ((p = 0 ∧ ∀ c ∈ out, c ≠ '.') ∨
       (0 < p ∧ ∃ pre suf, out = pre ++ '.' :: suf ∧ (∀ c ∈ pre, c ≠ '.') ∧
         (∀ c ∈ suf, c ≠ '.') ∧ suf.length = p)) := by
  have hp32 : p % 2 ^ 32 = p := Nat.mod_eq_of_lt (lt_of_le_of_lt hp (by norm_num))
  have hrmag := tunit_rmag_eq u
  have hfrac : n % 1000 ^ (3 - u.ord) < 10 ^ (9 - u.ord * 3) := by
    rw [← hrmag]
    exact Nat.mod_lt _ (Nat.pow_pos (by omega))
  simp only [formatSeconds, hp32, if_pos hp]
  by_cases h0 : p = 0
  · subst h0
    refine ⟨_, by rw [if_pos rfl], Or.inl ⟨rfl, natToDigits_ne_dot _⟩⟩
  · have hppos : 0 < p := Nat.pos_of_ne_zero h0
    by_cases hb : 9 - u.ord * 3 > p
    · have hv : n % 1000 ^ (3 - u.ord) / 10 ^ (9 - u.ord * 3 - p) < 10 ^ p := by
        rw [Nat.div_lt_iff_lt_mul (Nat.pow_pos (by omega))]
        calc n % 1000 ^ (3 - u.ord) < 10 ^ (9 - u.ord * 3) := hfrac
          _ = 10 ^ (p + (9 - u.ord * 3 - p)) := by congr 1; omega
          _ = 10 ^ p * 10 ^ (9 - u.ord * 3 - p) := by rw [pow_add]
      refine ⟨_, by rw [if_neg h0, if_pos hb],
        Or.inr ⟨hppos, natToDigits _, padTo p _, rfl, natToDigits_ne_dot _,
          padTo_ne_dot _ _, padTo_length _ _ (natToDigits_length_le p _ hppos hv)⟩⟩
    · have hv : n % 1000 ^ (3 - u.ord) * 10 ^ (p - (9 - u.ord * 3)) < 10 ^ p := by
        calc n % 1000 ^ (3 - u.ord) * 10 ^ (p - (9 - u.ord * 3))
            < 10 ^ (9 - u.ord * 3) * 10 ^ (p - (9 - u.ord * 3)) :=
              (Nat.mul_lt_mul_right (Nat.pow_pos (by omega))).mpr hfrac
          _ = 10 ^ ((9 - u.ord * 3) + (p - (9 - u.ord * 3))) := by rw [pow_add]
          _ = 10 ^ p := by congr 1; omega
      refine ⟨_, by rw [if_neg h0, if_neg hb],
        Or.inr ⟨hppos, natToDigits _, padTo p _, rfl, natToDigits_ne_dot _,
          padTo_ne_dot _ _, padTo_length _ _ (natToDigits_length_le p _ hppos hv)⟩⟩

/-- Witness for C9 at a concrete second count, unit and precision. -/
theorem formatSeconds_no_panic_suffix_w :
    ∃ out, formatSeconds 42 123456789 TUnit.milliseconds 5 = some out ∧
      ((5 = 0 ∧ ∀ c ∈ out, c ≠ '.') ∨
       (0 < 5 ∧ ∃ pre suf, out = pre ++ '.' :: suf ∧ (∀ c ∈ pre, c ≠ '.') ∧
         (∀ c ∈ suf, c ≠ '.') ∧ suf.length = 5)) :=
  formatSeconds_no_panic_suffix 42 123456789 TUnit.milliseconds 5 (by norm_num) (by norm_num)

/-!
## Claim C10
-/

/-- Claim C10: `write` with a Delta output format panics (the `expect` on
`num_nanoseconds`, modelled as `none`) exactly when the difference between
the timestamp and the supplied previous timestamp does not fit in a signed
64-bit nanosecond count; whenever the difference fits, it returns a
string. -/
theorem write_delta_overflow_panic_iff (isoR : Timestamp → Bool → List Char)
    (u : TUnit) (p : Nat) (t prev : Timestamp) (hp : p ≤ 9) :
    ((-(2 ^ 63) ≤ deltaNanos t prev ∧ deltaNanos t prev ≤ 2 ^ 63 - 1) →
      ∃ out, write isoR (.delta u p) t (some prev) = some out) ∧
    (¬ (-(2 ^ 63) ≤ deltaNanos t prev ∧ deltaNanos t prev ≤ 2 ^ 63 - 1) →
      write isoR (.delta u p) t (some prev) = none) := by
  constructor
  · intro hfit
    simp only [write, Option.getD_some, if_pos hfit]
    exact formatSeconds_total _ _ u p hp
  · intro hnofit
    simp only [write, Option.getD_some, if_neg hnofit]

/-- Witness for C10: a fitting delta returns a string; a difference of
about 9 500 years of seconds times 10^9 nanoseconds overflows i64 and
panics. -/
theorem write_delta_overflow_panic_iff_w :
    (∃ out, write (fun _ _ => []) (.delta TUnit.seconds 0) ⟨130, 0⟩
      (some ⟨0, 0⟩) = some out) ∧
    write (fun _ _ => []) (.delta TUnit.seconds 0) ⟨0, 0⟩
      (some ⟨300000000000, 0⟩) = none := by
  constructor
  · exact (write_delta_overflow_panic_iff (fun _ _ => []) TUnit.seconds 0
      ⟨130, 0⟩ ⟨0, 0⟩ (by norm_num)).1 (by decide)
  · exact (write_delta_overflow_panic_iff (fun _ _ => []) TUnit.seconds 0
      ⟨0, 0⟩ ⟨300000000000, 0⟩ (by norm_num)).2 (by decide)

/-!
## Claim C2
-/

/-- Claim C2 fails on the code: for the pre-epoch timestamp of -1 seconds
and 0 nanoseconds, the Unix arm of `write` does not render the
arithmetically correct value -1; the `as u128` cast in `format_seconds`
reinterprets the negative second count modulo `2 ^ 128`, so the output is
the 39-digit value `2 ^ 128 - 1`. -/
theorem write_unix_negative_seconds_wraps :
    write (fun _ _ => []) (.unix TUnit.seconds 0) ⟨-1, 0⟩ none =
      some (("340282366920938463463374607431768211455").toList) ∧
    ¬ write (fun _ _ => []) (.unix TUnit.seconds 0) ⟨-1, 0⟩ none =
      some (("-1").toList) := by
  refine ⟨by decide, by decide⟩

/-!
## Claim C3
-/

/-- Claim C3 fails on the code for negative deltas: with a previous
timestamp 130 seconds after the current one, the signed duration is -130
seconds, but instead of rendering a leading minus the Delta arm feeds -130
into `format_seconds`, whose `as u128` cast wraps it to `2 ^ 128 - 130`.
(The zero-delta and positive-delta renderings of the claim do hold; the
sign clause is the defect.) -/
theorem write_delta_negative_wraps :
    write (fun _ _ => []) (.delta TUnit.seconds 0) ⟨0, 0⟩ (some ⟨130, 0⟩) =
      some (("340282366920938463463374607431768211326").toList) ∧
    ¬ write (fun _ _ => []) (.delta TUnit.seconds 0) ⟨0, 0⟩ (some ⟨130, 0⟩) =
      some (("-130").toList) ∧
    write (fun _ _ => []) (.delta TUnit.seconds 0) ⟨130, 0⟩ none =
      some (("0").toList) ∧
    write (fun _ _ => []) (.delta TUnit.seconds 0) ⟨130, 0⟩ (some ⟨0, 0⟩) =
      some (("130").toList) := by
  refine ⟨by decide, by decide, by decide, by decide⟩

/-!
## Claim C6
-/

/-- Claim C6 fails on the code for negative millisecond counts: the token
`-1` decimal-parses to -1 milliseconds, but `(msec % 1000) as u32` wraps
the remainder -1 to 4294967295, the u32 multiplication by 1 000 000 wraps
to 4293967296, and `from_timestamp` receives that out-of-range nanosecond
argument and panics (modelled by the outer `none`).  For nonnegative
millisecond counts the conversion is exact. -/
theorem parseStringUnixMs_negative_panics :
    parseDecimal (("-1").toList) = some (-1, 0) ∧
    parseStringUnixMs (("-1").toList) = none := by
  refine ⟨by decide, by decide⟩
